import Mathlib

/-!
Shallow embedding of `src/tardis/montecarlo/src/integrator.c` (the formal
integral evaluator of the TARDIS supernova code) and verification of the
specification's claims about it.

C `double` arithmetic is idealized as real arithmetic (`ℝ`).  C arrays are
modelled as total functions (`ℤ → ℝ`, `ℤ → ℤ`) so that the out-of-bounds and
uninitialized reads performed by the C code correspond to reads of
unconstrained function values; writes are `Function.update`.  Machine
integers (`int64_t`) are modelled as `ℤ` (no overflow occurs at the
magnitudes involved in the claims).
-/

namespace Integrator

noncomputable section

/-- Constant `C_INV = 3.33564e-11` from integrator.c. -/
def C_INV : ℝ := 3.33564e-11

/-- Constant `KB_CGS = 1.3806488e-16` from integrator.c. -/
def KB_CGS : ℝ := 1.3806488e-16

/-- Constant `H_CGS = 6.62606957e-27` from integrator.c. -/
def H_CGS : ℝ := 6.62606957e-27

/-- Embedding of `intensity_black_body (double nu, double T)`. -/
def intensity_black_body (nu T : ℝ) : ℝ :=
  let beta_rad := 1 / (KB_CGS * T)
  let coefficient := 2 * H_CGS * C_INV * C_INV
  coefficient * nu * nu * nu / (Real.exp (H_CGS * nu * beta_rad) - 1)

/-- Embedding of `trapezoid_integration (const double* array, const double h, int N)`:
`result = (array[0] + array[N-1])/2`, then `result += array[idx]` for
`idx = 1 .. N-2`, then `result * h`. -/
def trapezoid_integration (array : ℕ → ℝ) (h : ℝ) (N : ℕ) : ℝ :=
  ((array 0 + array (N - 1)) / 2 + ∑ idx ∈ Finset.Ico 1 (N - 1), array idx) * h

/-- Embedding of `calculate_z(double r, double p, double inv_t)`:
`(r > p) ? sqrt(r * r - p * p) * C_INV * inv_t : 0`. -/
def calculate_z (r p inv_t : ℝ) : ℝ :=
  if r > p then Real.sqrt (r * r - p * p) * C_INV * inv_t else 0

/-- The part of `storage_model_t` read by integrator.c.  `r_outer` is the list
of shell outer radii (length = `no_of_shells`), `r_inner0` is `r_inner[0]`
(the only inner radius the integrator reads), `line_list_nu` the line-list
rest frequencies, and `tau_sobolevs` the flattened (shell, line) Sobolev
optical-depth table, modelled as a total function on `ℤ` so that the C code's
out-of-bounds reads denote unconstrained values. -/
structure StorageModel where
  r_inner0 : ℝ
  r_outer : List ℝ
  inverse_time_explosion : ℝ
  line_list_nu : List ℝ
  tau_sobolevs : ℤ → ℝ

namespace StorageModel

/-- Field `storage->no_of_shells`. -/
def no_of_shells (s : StorageModel) : ℕ := s.r_outer.length

/-- Field `storage->no_of_lines`. -/
def no_of_lines (s : StorageModel) : ℕ := s.line_list_nu.length

end StorageModel

/-- One write performed by `populate_z` into the output buffers: target index,
z-value written to `oz`, shell id written to `oshell_id`. -/
abbrev ZWrite := ℤ × ℝ × ℤ

/-- The writes of the photosphere branch of `populate_z` (`p <= r_inner[0]`):
`oz[i] = 1 - calculate_z(r[i], p, inv_t); oshell_id[i] = i;` for `i = 0 .. N-1`. -/
def photo_writes (r : List ℝ) (p inv_t : ℝ) : List ZWrite :=
  (List.range r.length).map
    (fun (i : ℕ) => ((i : ℤ), 1 - calculate_z (r.getD i 0) p inv_t, (i : ℤ)))

/-- One iteration of the non-photosphere loop of `populate_z`.  The state is
the current `offset` variable (initialized to `-1`) together with the list of
buffer writes performed so far.  `z == 0` shells are skipped; otherwise
`offset` is set on first intersection, and the far crossing `1 + z` is
written at `i_low = N - i - 1` while the near crossing `1 - z` is written at
`i_up = N + i - 2 * offset`. -/
def nonphoto_step (N : ℕ) (r : List ℝ) (p inv_t : ℝ)
    (st : ℤ × List ZWrite) (i : ℕ) : ℤ × List ZWrite :=
  if calculate_z (r.getD i 0) p inv_t = 0 then st
  else
    ((if st.1 = -1 then (i : ℤ) else st.1),
      st.2 ++ [((N : ℤ) - i - 1, 1 + calculate_z (r.getD i 0) p inv_t, (i : ℤ)),
               ((N : ℤ) + i - 2 * (if st.1 = -1 then (i : ℤ) else st.1),
                 1 - calculate_z (r.getD i 0) p inv_t, (i : ℤ))])

/-- The whole non-photosphere loop of `populate_z`: fold of `nonphoto_step`
over `i = 0 .. N-1` starting from `offset = -1` and no writes. -/
def nonphoto_scan (r : List ℝ) (p inv_t : ℝ) : ℤ × List ZWrite :=
  (List.range r.length).foldl (nonphoto_step r.length r p inv_t) (-1, [])

/-- Apply a list of buffer writes (index, value) to an array modelled as a
total function, left to right. -/
def apply_writes {β : Type} (init : ℤ → β) (ws : List (ℤ × β)) : ℤ → β :=
  ws.foldl (fun A w => Function.update A w.1 w.2) init

/-- Embedding of `populate_z(storage, p, oz, oshell_id)`.  Takes the previous
contents of the caller's `oz` / `oshell_id` buffers (which the C code leaves
in place wherever it does not write) and returns the new buffer contents
together with the returned count.  Photosphere branch returns `N`; the other
branch returns `2 * (N - offset)` with `offset` as left by the loop (`-1` if
no shell was intersected, exactly as in the C code). -/
def populate_z (s : StorageModel) (p : ℝ) (oz : ℤ → ℝ) (oshell_id : ℤ → ℤ) :
    (ℤ → ℝ) × (ℤ → ℤ) × ℤ :=
  let N := s.no_of_shells
  if p ≤ s.r_inner0 then
    let ws := photo_writes s.r_outer p s.inverse_time_explosion
    (apply_writes oz (ws.map (fun w => (w.1, w.2.1))),
     apply_writes oshell_id (ws.map (fun w => (w.1, w.2.2))),
     (N : ℤ))
  else
    let sc := nonphoto_scan s.r_outer p s.inverse_time_explosion
    (apply_writes oz (sc.2.map (fun w => (w.1, w.2.1))),
     apply_writes oshell_id (sc.2.map (fun w => (w.1, w.2.2))),
     2 * ((N : ℤ) - sc.1))

/-- Embedding of `calculate_p_values(storage, N, opp)`:
`opp[i] = R_max/(N - 1) * i` with `R_max = r_outer[no_of_shells - 1]`. -/
def calculate_p_values (s : StorageModel) (N : ℕ) : ℕ → ℝ :=
  fun i => s.r_outer.getD (s.no_of_shells - 1) 0 / ((N : ℝ) - 1) * (i : ℝ)

/-- Modelled from the spec: the Frequency-line locator `line_search`
(implemented in `cmontecarlo.c`, which is not part of this repository slice).
Per the spec it "returns the index of the first line with frequency ≤
`target_freq`" in the descending-sorted list, "returning `count` if none
found". -/
def line_search (lines : List ℝ) (target : ℝ) : ℕ :=
  match lines with
  | [] => 0
  | l :: rest => if l ≤ target then 0 else line_search rest target + 1

/-- The inner pointer walk of `_formal_integral`: starting at absolute table
index `j` (= `shell_id * size_line + idx_nu_start`) and at the line-list
suffix from `idx_nu_start`, repeatedly do
`if (*pline < nu_end) break; I = I * (*pexp_tau) + *patt_S_ul;`
advancing all pointers in lockstep until the line list is exhausted. -/
def line_walk (exp_tau att_S_ul : ℤ → ℝ) (nu_end : ℝ) :
    ℤ → List ℝ → ℝ → ℝ
  | _, [], I => I
  | j, l :: rest, I =>
    if l < nu_end then I
    else line_walk exp_tau att_S_ul nu_end (j + 1) rest (I * exp_tau j + att_S_ul j)

/-- One iteration of the intersection loop of `_formal_integral` (one path
segment): compute `nu_start = nu * z[i]`, `nu_end = nu * z[i+1]`,
`offset = shell_id[i] * size_line`, locate the first contributing line and
run the inner pointer walk on intensity `I`. -/
def segment (s : StorageModel) (exp_tau att_S_ul : ℤ → ℝ) (nu : ℝ)
    (z_i z_i1 : ℝ) (sid : ℤ) (I : ℝ) : ℝ :=
  let nu_start := nu * z_i
  let nu_end := nu * z_i1
  let offset := sid * (s.no_of_lines : ℤ)
  let idx_nu_start := line_search s.line_list_nu nu_start
  line_walk exp_tau att_S_ul nu_end (offset + (idx_nu_start : ℤ))
    (s.line_list_nu.drop idx_nu_start) I

/-- The whole per-ray computation of `_formal_integral` for one impact
parameter `p`: run `populate_z` on the thread buffers, seed
`I_nu[p_idx]` with the black body (if `p <= R_ph`) or `0`, run the
intersection loop over segments `i = 0 .. size_z - 2`, and finally multiply
by `p`. -/
def per_ray (s : StorageModel) (exp_tau att_S_ul : ℤ → ℝ) (iT nu p : ℝ)
    (zbuf : ℤ → ℝ) (sbuf : ℤ → ℤ) : ℝ :=
  let pz := populate_z s p zbuf sbuf
  let z := pz.1
  let shell_id := pz.2.1
  let size_z := pz.2.2
  let I0 := if p ≤ s.r_inner0 then intensity_black_body nu iT else 0
  ((List.range (size_z - 1).toNat).foldl
      (fun (I : ℝ) (i : ℕ) => segment s exp_tau att_S_ul nu (z (i : ℤ)) (z ((i : ℤ) + 1))
        (shell_id (i : ℤ)) I) I0) * p

/-- The thread-local state mutated by the `p_idx` loop: the `I_nu` buffer and
the `z` / `shell_id` scratch buffers (all stack arrays in the C code, hence
with arbitrary initial contents). -/
abbrev ThreadState := (ℕ → ℝ) × (ℤ → ℝ) × (ℤ → ℤ)

/-- One iteration of the `p_idx` loop of `_formal_integral`: run the per-ray
computation at `p = pp[p_idx]`, store the result in `I_nu[p_idx]`, and keep
the `z` / `shell_id` buffers as `populate_z` left them. -/
def loop_step (s : StorageModel) (exp_tau att_S_ul : ℤ → ℝ) (iT nu : ℝ)
    (pp : ℕ → ℝ) (st : ThreadState) (p_idx : ℕ) : ThreadState :=
  let p := pp p_idx
  let pz := populate_z s p st.2.1 st.2.2
  (Function.update st.1 p_idx (per_ray s exp_tau att_S_ul iT nu p st.2.1 st.2.2),
   pz.1, pz.2.1)

/-- The `p_idx` loop of `_formal_integral` for one frequency bin:
`for (p_idx = 1; p_idx < N; ++p_idx)`, i.e. a fold over `[1, …, N-1]`.
`I_nu[0]` is never touched. -/
def p_loop (s : StorageModel) (exp_tau att_S_ul : ℤ → ℝ) (iT nu : ℝ)
    (pp : ℕ → ℝ) (N : ℕ) (st : ThreadState) : ThreadState :=
  (List.range' 1 (N - 1)).foldl (loop_step s exp_tau att_S_ul iT nu pp) st

/-- The attenuation table prepared once per thread:
`exp_tau[i] = exp(-storage->line_lists_tau_sobolevs[i])`. -/
def exp_tau_of (s : StorageModel) : ℤ → ℝ :=
  fun i => Real.exp (-(s.tau_sobolevs i))

/-- Abbreviation `R_max = storage->r_outer[size_shell - 1]`. -/
def R_max (s : StorageModel) : ℝ := s.r_outer.getD (s.no_of_shells - 1) 0

/-- The value stored into the output slot `L[nu_idx]` of `_formal_integral`
for one frequency bin:
`8 * M_PI * M_PI * trapezoid_integration(I_nu, R_max / N, N)` where `I_nu`
is the intensity buffer after the `p_idx` loop.  `st` is the thread-local
state (including the uninitialized stack contents) at loop entry. -/
def L_bin (s : StorageModel) (att_S_ul : ℤ → ℝ) (iT nu : ℝ) (N : ℕ)
    (st : ThreadState) : ℝ :=
  let pp := calculate_p_values s N
  let fin := p_loop s (exp_tau_of s) att_S_ul iT nu pp N st
  8 * Real.pi * Real.pi * trapezoid_integration fin.1 (R_max s / (N : ℝ)) N

/-- The index of the first shell whose outer radius exceeds `p` (the `offset` of the claims); equals the list length when there is none. -/
def firstShellAbove (p : ℝ) : List ℝ → ℕ
  | [] => 0
  | rr :: rest => if p < rr then 0 else firstShellAbove p rest + 1

/-- The (index, rest-frequency) pairs of the lines inside the Doppler window
`[nu_end, nu_start]` of one segment, in list (= descending-frequency) order. -/
def windowLines (lines : List ℝ) (nu_start nu_end : ℝ) : List (ℕ × ℝ) :=
  (lines.enum).filter (fun q => decide (nu_end ≤ q.2 ∧ q.2 ≤ nu_start))

/-! ### Helper lemmas -/

/-- Folding the `p_idx` loop step over a list of indices that does not
contain `0` leaves `I_nu[0]` untouched. -/
theorem foldl_loop_step_fst_zero (s : StorageModel) (e a : ℤ → ℝ) (iT nu : ℝ)
    (pp : ℕ → ℝ) :
    ∀ (l : List ℕ) (st : ThreadState), (∀ x ∈ l, x ≠ 0) →
      (l.foldl (loop_step s e a iT nu pp) st).1 0 = st.1 0
  | [], _, _ => rfl
  | x :: xs, st, h => by
    rw [List.foldl_cons,
      foldl_loop_step_fst_zero s e a iT nu pp xs _
        (fun y hy => h y (List.mem_cons_of_mem _ hy))]
    have hx : x ≠ 0 := h x (List.mem_cons_self x xs)
    simp [loop_step, Function.update_noteq (Ne.symm hx)]

/-- For a strictly descending line list, the inner pointer walk started at the
index located by `line_search` performs exactly one recurrence step per line
inside the window `[e, t]`, in list order.  `n` is the enumeration offset of
`lines` inside the full line list and `base` the table index of enumeration
index `0`. -/
theorem mem_of_mem_enumFrom {q : ℕ × ℝ} :
    ∀ (xs : List ℝ) (n : ℕ), q ∈ xs.enumFrom n → q.2 ∈ xs
  | [], _, h => absurd h (List.not_mem_nil q)
  | x :: xs, n, h => by
    rw [List.enumFrom_cons, List.mem_cons] at h
    rcases h with h | h
    · rw [h]; exact List.mem_cons_self x xs
    · exact List.mem_cons_of_mem x (mem_of_mem_enumFrom xs (n + 1) h)

theorem line_walk_window (E A : ℤ → ℝ) (e t : ℝ) (base : ℤ) :
    ∀ (lines : List ℝ), lines.Sorted (· > ·) → ∀ (n : ℕ) (I : ℝ),
      line_walk E A e (base + (n : ℤ) + (line_search lines t : ℤ))
          (lines.drop (line_search lines t)) I
      = ((lines.enumFrom n).filter (fun q => decide (e ≤ q.2 ∧ q.2 ≤ t))).foldl
          (fun I q => I * E (base + (q.1 : ℤ)) + A (base + (q.1 : ℤ))) I := by
  intro lines
  induction lines with
  | nil =>
    intro _ n I
    simp [line_search, line_walk]
  | cons l rest ih =>
    intro hs n I
    rw [List.sorted_cons] at hs
    obtain ⟨hl, hrest⟩ := hs
    by_cases hlt : l ≤ t
    · have hsearch : line_search (l :: rest) t = 0 := by
        simp [line_search, hlt]
      have hsearch0 : line_search rest t = 0 := by
        cases rest with
        | nil => rfl
        | cons r rs =>
          have : r ≤ t := le_of_lt (lt_of_lt_of_le (hl r (List.mem_cons_self r rs)) hlt)
          simp [line_search, this]
      rw [hsearch]
      by_cases hle : l < e
      · have hwalk : line_walk E A e (base + (n : ℤ) + ((0 : ℕ) : ℤ))
            ((l :: rest).drop 0) I = I := by
          simp [line_walk, hle]
        rw [hwalk]
        have hfilter : ((l :: rest).enumFrom n).filter
            (fun q => decide (e ≤ q.2 ∧ q.2 ≤ t)) = [] := by
          rw [List.filter_eq_nil_iff]
          intro q hq
          simp only [decide_eq_true_eq, not_and]
          intro he _
          rcases List.mem_cons.mp (mem_of_mem_enumFrom _ _ hq) with h | h
          · exact absurd (h ▸ he) (not_le.mpr hle)
          · exact absurd he (not_le.mpr (lt_trans (hl q.2 h) hle))
        rw [hfilter]
        rfl
      · have hih := ih hrest (n + 1) (I * E (base + (n : ℤ)) + A (base + (n : ℤ)))
        rw [hsearch0] at hih
        simp only [List.drop_zero, Nat.cast_zero, add_zero] at hih
        have hwalk : line_walk E A e (base + (n : ℤ) + ((0 : ℕ) : ℤ))
            ((l :: rest).drop 0) I
            = line_walk E A e (base + (n : ℤ) + 1) rest
                (I * E (base + (n : ℤ)) + A (base + (n : ℤ))) := by
          simp [line_walk, hle]
        rw [hwalk]
        have hfilter : ((l :: rest).enumFrom n).filter
            (fun q => decide (e ≤ q.2 ∧ q.2 ≤ t))
            = (n, l) :: (rest.enumFrom (n + 1)).filter
                (fun q => decide (e ≤ q.2 ∧ q.2 ≤ t)) := by
          rw [List.enumFrom_cons, List.filter_cons]
          simp [not_lt.mp hle, hlt]
        rw [hfilter, List.foldl_cons,
          show base + (n : ℤ) + 1 = base + ((n + 1 : ℕ) : ℤ) by push_cast; ring]
        exact hih
    · have hsearch : line_search (l :: rest) t = line_search rest t + 1 := by
        simp [line_search, hlt]
      rw [hsearch]
      have hih := ih hrest (n + 1) I
      have hdrop : (l :: rest).drop (line_search rest t + 1)
          = rest.drop (line_search rest t) := rfl
      have hidx : base + (n : ℤ) + ((line_search rest t + 1 : ℕ) : ℤ)
          = base + ((n + 1 : ℕ) : ℤ) + ((line_search rest t : ℕ) : ℤ) := by
        push_cast; ring
      have hfilter : ((l :: rest).enumFrom n).filter
          (fun q => decide (e ≤ q.2 ∧ q.2 ≤ t))
          = (rest.enumFrom (n + 1)).filter
              (fun q => decide (e ≤ q.2 ∧ q.2 ≤ t)) := by
        rw [List.enumFrom_cons, List.filter_cons]
        simp [hlt]
      rw [hdrop, hidx, hfilter]
      exact hih

theorem exists_enumFrom_of_mem {x : ℝ} :
    ∀ (xs : List ℝ) (n : ℕ), x ∈ xs → ∃ k, (k, x) ∈ xs.enumFrom n
  | [], _, h => absurd h (List.not_mem_nil x)
  | y :: ys, n, h => by
    rcases List.mem_cons.mp h with h | h
    · exact ⟨n, by rw [List.enumFrom_cons, h]; exact List.mem_cons_self _ _⟩
    · rcases exists_enumFrom_of_mem ys (n + 1) h with ⟨k, hk⟩
      exact ⟨k, by rw [List.enumFrom_cons]; exact List.mem_cons_of_mem _ hk⟩

/-- If `line_search` finds an index inside the list, the line there satisfies
the search contract: its frequency is at most the target. -/
theorem line_search_head_le :
    ∀ (lines : List ℝ) (t l : ℝ) (rs : List ℝ),
      lines.drop (line_search lines t) = l :: rs → l ≤ t
  | [], t, l, rs, h => by simp [line_search] at h
  | a :: as, t, l, rs, h => by
    by_cases ha : a ≤ t
    · simp only [line_search, if_pos ha, List.drop_zero] at h
      exact (List.cons.injEq _ _ _ _ ▸ h).1 ▸ ha
    · simp only [line_search, if_neg ha, List.drop_succ_cons] at h
      exact line_search_head_le as t l rs h

/-- A segment whose Doppler window contains no line leaves the intensity
unchanged. -/
theorem segment_of_window_empty (s : StorageModel) (E A : ℤ → ℝ)
    (nu z_i z_i1 : ℝ) (sid : ℤ) (I : ℝ)
    (h : windowLines s.line_list_nu (nu * z_i) (nu * z_i1) = []) :
    segment s E A nu z_i z_i1 sid I = I := by
  have hnone : ∀ x ∈ s.line_list_nu, ¬ (nu * z_i1 ≤ x ∧ x ≤ nu * z_i) := by
    intro x hx hcon
    rcases exists_enumFrom_of_mem s.line_list_nu 0 hx with ⟨k, hk⟩
    have := List.filter_eq_nil_iff.mp h (k, x) hk
    simp only [decide_eq_true_eq] at this
    exact this hcon
  show line_walk E A (nu * z_i1) _
      (s.line_list_nu.drop (line_search s.line_list_nu (nu * z_i))) I = I
  cases hdrop : s.line_list_nu.drop (line_search s.line_list_nu (nu * z_i)) with
  | nil => rfl
  | cons l rs =>
    have hl_le : l ≤ nu * z_i := line_search_head_le _ _ _ _ hdrop
    have hl_mem : l ∈ s.line_list_nu :=
      List.drop_subset _ _ (hdrop ▸ List.mem_cons_self l rs)
    have hl_lt : l < nu * z_i1 := by
      by_contra hcon
      exact hnone l hl_mem ⟨not_lt.mp hcon, hl_le⟩
    simp [line_walk, hl_lt]

/-- Folding a step function that fixes the accumulator on every list element
is the identity. -/
theorem foldl_fix {α : Type} {f : ℝ → α → ℝ} :
    ∀ (l : List α), (∀ i ∈ l, ∀ I, f I i = I) → ∀ I, l.foldl f I = I
  | [], _, I => rfl
  | x :: xs, h, I => by
    rw [List.foldl_cons, h x (List.mem_cons_self x xs) I]
    exact foldl_fix xs (fun y hy => h y (List.mem_cons_of_mem x hy)) I

/-! ### Analysis of `populate_z` -/

/-- The half-chord value of shell `i`, exactly as the non-photosphere loop
computes it: `z = calculate_z(r[i], p, inv_t)`. -/
def zsh (r : List ℝ) (p inv_t : ℝ) (i : ℕ) : ℝ := calculate_z (r.getD i 0) p inv_t

/-- Closed form of the writes performed by the non-photosphere loop for shells
`a, a+1, …, a+m-1`, all intersected, when the `offset` variable holds `o`. -/
def np_writes (N : ℕ) (r : List ℝ) (p inv_t : ℝ) (o : ℕ) : ℕ → ℕ → List ZWrite
  | _, 0 => []
  | a, m + 1 =>
    ((N : ℤ) - a - 1, 1 + zsh r p inv_t a, (a : ℤ)) ::
    ((N : ℤ) + a - 2 * (o : ℤ), 1 - zsh r p inv_t a, (a : ℤ)) ::
    np_writes N r p inv_t o (a + 1) m

theorem firstShellAbove_not_lt (p : ℝ) :
    ∀ (r : List ℝ) (i : ℕ), i < firstShellAbove p r → ¬ p < r.getD i 0
  | [], i, h => by simp [firstShellAbove] at h
  | rr :: rest, i, h => by
    by_cases hp : p < rr
    · simp [firstShellAbove, hp] at h
    · rw [firstShellAbove, if_neg hp] at h
      cases i with
      | zero => exact hp
      | succ i => exact firstShellAbove_not_lt p rest i (by omega)

theorem firstShellAbove_lt (p : ℝ) :
    ∀ (r : List ℝ), firstShellAbove p r < r.length →
      p < r.getD (firstShellAbove p r) 0
  | [], h => by simp [firstShellAbove] at h
  | rr :: rest, h => by
    by_cases hp : p < rr
    · rw [firstShellAbove, if_pos hp]
      exact hp
    · rw [firstShellAbove, if_neg hp]
      rw [firstShellAbove, if_neg hp, List.length_cons] at h
      exact firstShellAbove_lt p rest (by omega)

theorem firstShellAbove_lt_length (p : ℝ) :
    ∀ (r : List ℝ), (∃ x ∈ r, p < x) → firstShellAbove p r < r.length
  | [], h => by simp at h
  | rr :: rest, h => by
    by_cases hp : p < rr
    · simp [firstShellAbove, hp]
    · rw [firstShellAbove, if_neg hp, List.length_cons, Nat.add_lt_add_iff_right]
      rcases h with ⟨x, hx, hpx⟩
      rcases List.mem_cons.mp hx with rfl | hx
      · exact absurd hpx hp
      · exact firstShellAbove_lt_length p rest ⟨x, hx, hpx⟩

theorem apply_writes_not_mem {β : Type} :
    ∀ (ws : List (ℤ × β)) (init : ℤ → β) (k : ℤ),
      k ∉ ws.map Prod.fst → apply_writes init ws k = init k
  | [], _, _, _ => rfl
  | w :: ws, init, k, h => by
    rw [List.map_cons, List.mem_cons, not_or] at h
    rw [apply_writes, List.foldl_cons,
      ← apply_writes, apply_writes_not_mem ws _ k h.2,
      Function.update_noteq h.1]

theorem apply_writes_nodup_mem {β : Type} :
    ∀ (ws : List (ℤ × β)) (init : ℤ → β) (k : ℤ) (v : β),
      (ws.map Prod.fst).Nodup → (k, v) ∈ ws → apply_writes init ws k = v
  | [], _, _, _, _, hmem => absurd hmem (List.not_mem_nil _)
  | w :: ws, init, k, v, hnd, hmem => by
    rw [List.map_cons, List.nodup_cons] at hnd
    rcases List.mem_cons.mp hmem with rfl | hmem
    · rw [apply_writes, List.foldl_cons, ← apply_writes,
        apply_writes_not_mem ws _ k hnd.1, Function.update_same]
    · rw [apply_writes, List.foldl_cons, ← apply_writes]
      exact apply_writes_nodup_mem ws _ k v hnd.2 hmem

/-- Shells that are not intersected (`z == 0`) are skipped by the loop body
without any state change. -/
theorem nonphoto_foldl_skip (N : ℕ) (r : List ℝ) (p inv_t : ℝ) :
    ∀ (l : List ℕ) (st : ℤ × List ZWrite),
      (∀ i ∈ l, zsh r p inv_t i = 0) →
      l.foldl (nonphoto_step N r p inv_t) st = st
  | [], _, _ => rfl
  | i :: l, st, h => by
    rw [List.foldl_cons,
      show nonphoto_step N r p inv_t st i = st from
        if_pos (h i (List.mem_cons_self i l))]
    exact nonphoto_foldl_skip N r p inv_t l st
      (fun j hj => h j (List.mem_cons_of_mem i hj))

/-- Once `offset` is set to `o ≥ 0`, folding the loop body over a block of
intersected shells appends exactly the closed-form writes. -/
theorem nonphoto_foldl_run (N : ℕ) (r : List ℝ) (p inv_t : ℝ) (o : ℕ) :
    ∀ (m a : ℕ) (ws : List ZWrite),
      (∀ i, a ≤ i → i < a + m → zsh r p inv_t i ≠ 0) →
      (List.range' a m).foldl (nonphoto_step N r p inv_t) ((o : ℤ), ws)
        = ((o : ℤ), ws ++ np_writes N r p inv_t o a m)
  | 0, a, ws, _ => by simp [np_writes]
  | m + 1, a, ws, h => by
    rw [List.range'_succ, List.foldl_cons]
    have hz : ¬ calculate_z (r.getD a 0) p inv_t = 0 := h a le_rfl (by omega)
    have hstep : nonphoto_step N r p inv_t ((o : ℤ), ws) a
        = ((o : ℤ), ws ++ [((N : ℤ) - a - 1, 1 + zsh r p inv_t a, (a : ℤ)),
            ((N : ℤ) + a - 2 * (o : ℤ), 1 - zsh r p inv_t a, (a : ℤ))]) := by
      simp only [nonphoto_step, zsh]
      rw [if_neg hz, if_neg (show ¬ (((o : ℤ), ws).1 = -1) from by show ¬ ((o : ℤ) = -1); omega)]
    rw [hstep, nonphoto_foldl_run N r p inv_t o m (a + 1) _
      (fun i hi1 hi2 => h i (by omega) (by omega))]
    simp [np_writes, List.append_assoc]

/-- Characterization of the whole non-photosphere scan: if the shells below
`off` are missed and the shells from `off` on are all intersected, the scan
leaves `offset = off` and performs exactly the closed-form writes. -/
theorem nonphoto_scan_spec (r : List ℝ) (p inv_t : ℝ) (off : ℕ)
    (hofflt : off < r.length)
    (hbelow : ∀ i, i < off → zsh r p inv_t i = 0)
    (habove : ∀ i, off ≤ i → i < r.length → zsh r p inv_t i ≠ 0) :
    nonphoto_scan r p inv_t
      = ((off : ℤ), np_writes r.length r p inv_t off off (r.length - off)) := by
  set N := r.length with hN
  have e1 : N - off + off = N := by omega
  have hrange : List.range N = List.range' 0 off ++ List.range' off (N - off) := by
    conv_lhs => rw [← e1]
    rw [List.range_eq_range', ← List.range'_append_1, Nat.zero_add]
  rw [nonphoto_scan, ← hN, hrange, List.foldl_append]
  rw [nonphoto_foldl_skip N r p inv_t (List.range' 0 off) (-1, [])
    (fun i hi => hbelow i (by simpa using (List.mem_range'_1.mp hi).2))]
  have hm : List.range' off (N - off) = off :: List.range' (off + 1) (N - off - 1) := by
    conv_lhs => rw [show N - off = (N - off - 1) + 1 by omega]
    exact List.range'_succ off (N - off - 1) 1
  rw [hm, List.foldl_cons]
  have hz : ¬ calculate_z (r.getD off 0) p inv_t = 0 := habove off le_rfl hofflt
  have hstep : nonphoto_step N r p inv_t (-1, []) off
      = ((off : ℤ), [((N : ℤ) - off - 1, 1 + zsh r p inv_t off, (off : ℤ)),
          ((N : ℤ) + off - 2 * (off : ℤ), 1 - zsh r p inv_t off, (off : ℤ))]) := by
    simp only [nonphoto_step, zsh]
    rw [if_neg hz]
    simp
  rw [hstep, nonphoto_foldl_run N r p inv_t off (N - off - 1) (off + 1) _
    (fun i hi1 hi2 => habove i (by omega) (by omega))]
  conv_rhs => rw [show N - off = N - off - 1 + 1 from by omega]
  rw [show np_writes N r p inv_t off off (N - off - 1 + 1)
      = ((N : ℤ) - off - 1, 1 + zsh r p inv_t off, (off : ℤ)) ::
        ((N : ℤ) + off - 2 * (off : ℤ), 1 - zsh r p inv_t off, (off : ℤ)) ::
        np_writes N r p inv_t off (off + 1) (N - off - 1) from rfl]
  simp

theorem C_INV_pos : 0 < C_INV := by norm_num [C_INV]

theorem zsh_eq_zero {r : List ℝ} {p : ℝ} (inv_t : ℝ) {i : ℕ}
    (h : r.getD i 0 ≤ p) : zsh r p inv_t i = 0 := by
  rw [zsh, calculate_z, if_neg (not_lt.mpr h)]

theorem zsh_pos {r : List ℝ} {p inv_t : ℝ} {i : ℕ}
    (hp : 0 ≤ p) (hr : p < r.getD i 0) (hinv : 0 < inv_t) :
    0 < zsh r p inv_t i := by
  rw [zsh, calculate_z, if_pos hr]
  have hsq : 0 < r.getD i 0 * r.getD i 0 - p * p := by nlinarith
  exact mul_pos (mul_pos (Real.sqrt_pos.mpr hsq) C_INV_pos) hinv

theorem zsh_nonneg {r : List ℝ} {p : ℝ} {inv_t : ℝ} {i : ℕ}
    (hinv : 0 ≤ inv_t) : 0 ≤ zsh r p inv_t i := by
  rw [zsh, calculate_z]
  by_cases h : r.getD i 0 > p
  · rw [if_pos h]
    exact mul_nonneg (mul_nonneg (Real.sqrt_nonneg _) (le_of_lt C_INV_pos)) hinv
  · rw [if_neg h]

theorem zsh_lt_one {r : List ℝ} {p inv_t : ℝ} {i : ℕ}
    (hp : 0 < p) (hr : p < r.getD i 0) (hinv : 0 < inv_t)
    (hrad : r.getD i 0 * C_INV * inv_t ≤ 1) : zsh r p inv_t i < 1 := by
  rw [zsh, calculate_z, if_pos hr]
  have h0r : 0 < r.getD i 0 := lt_trans hp hr
  have hs : Real.sqrt (r.getD i 0 * r.getD i 0 - p * p) < r.getD i 0 := by
    have h1 : r.getD i 0 * r.getD i 0 - p * p < r.getD i 0 * r.getD i 0 := by nlinarith
    have h2 := Real.sqrt_lt_sqrt (by nlinarith : (0:ℝ) ≤ r.getD i 0 * r.getD i 0 - p * p) h1
    rwa [Real.sqrt_mul_self (le_of_lt h0r)] at h2
  calc Real.sqrt (r.getD i 0 * r.getD i 0 - p * p) * C_INV * inv_t
      < r.getD i 0 * C_INV * inv_t := by
        apply mul_lt_mul_of_pos_right _ hinv
        exact mul_lt_mul_of_pos_right hs C_INV_pos
    _ ≤ 1 := hrad

theorem zsh_strict_mono {r : List ℝ} {p inv_t : ℝ} {i j : ℕ}
    (hp : 0 ≤ p) (hi : p < r.getD i 0) (hij : r.getD i 0 < r.getD j 0)
    (hinv : 0 < inv_t) : zsh r p inv_t i < zsh r p inv_t j := by
  rw [zsh, zsh, calculate_z, calculate_z, if_pos hi, if_pos (lt_trans hi hij)]
  have hs : Real.sqrt (r.getD i 0 * r.getD i 0 - p * p)
      < Real.sqrt (r.getD j 0 * r.getD j 0 - p * p) := by
    apply Real.sqrt_lt_sqrt (by nlinarith)
    nlinarith
  apply mul_lt_mul_of_pos_right _ hinv
  exact mul_lt_mul_of_pos_right hs C_INV_pos

theorem pairwise_getD {r : List ℝ} (h : List.Pairwise (· < ·) r) {i j : ℕ}
    (hij : i < j) (hj : j < r.length) : r.getD i 0 < r.getD j 0 := by
  have hi : i < r.length := lt_trans hij hj
  rw [List.getD_eq_getElem?_getD, List.getD_eq_getElem?_getD,
    List.getElem?_eq_getElem hi, List.getElem?_eq_getElem hj]
  exact List.pairwise_iff_getElem.mp h i j hi hj hij

theorem np_writes_fst_mem (N : ℕ) (r : List ℝ) (p inv_t : ℝ) (o : ℕ) :
    ∀ (m a : ℕ) (k : ℤ),
      k ∈ (np_writes N r p inv_t o a m).map (fun w => w.1) ↔
      ∃ i : ℕ, a ≤ i ∧ i < a + m ∧ (k = (N : ℤ) - i - 1 ∨ k = (N : ℤ) + i - 2 * (o : ℤ))
  | 0, a, k => by
    simp only [np_writes, List.map_nil, List.not_mem_nil, false_iff, not_exists]
    intro i
    omega
  | m + 1, a, k => by
    simp only [np_writes, List.map_cons, List.mem_cons,
      np_writes_fst_mem N r p inv_t o m (a + 1) k]
    constructor
    · rintro (rfl | rfl | ⟨i, hi1, hi2, hk⟩)
      · exact ⟨a, le_rfl, by omega, Or.inl rfl⟩
      · exact ⟨a, le_rfl, by omega, Or.inr rfl⟩
      · exact ⟨i, by omega, by omega, hk⟩
    · rintro ⟨i, hi1, hi2, hk⟩
      by_cases hia : i = a
      · subst hia
        rcases hk with rfl | rfl
        · exact Or.inl rfl
        · exact Or.inr (Or.inl rfl)
      · exact Or.inr (Or.inr ⟨i, by omega, by omega, hk⟩)

theorem np_writes_fst_nodup (N : ℕ) (r : List ℝ) (p inv_t : ℝ) (o : ℕ) :
    ∀ (m a : ℕ), o ≤ a →
      ((np_writes N r p inv_t o a m).map (fun w => w.1)).Nodup
  | 0, _, _ => by simp [np_writes]
  | m + 1, a, ho => by
    simp only [np_writes, List.map_cons, List.nodup_cons, List.mem_cons,
      np_writes_fst_mem]
    refine ⟨?_, ?_, np_writes_fst_nodup N r p inv_t o m (a + 1) (by omega)⟩
    · rintro (h | ⟨i, hi1, hi2, h | h⟩) <;> omega
    · rintro ⟨i, hi1, hi2, h | h⟩ <;> omega

theorem np_writes_mem_of (N : ℕ) (r : List ℝ) (p inv_t : ℝ) (o : ℕ) :
    ∀ (m a i : ℕ), a ≤ i → i < a + m →
      ((N : ℤ) - i - 1, 1 + zsh r p inv_t i, (i : ℤ)) ∈ np_writes N r p inv_t o a m ∧
      ((N : ℤ) + i - 2 * (o : ℤ), 1 - zsh r p inv_t i, (i : ℤ)) ∈ np_writes N r p inv_t o a m
  | 0, a, i, h1, h2 => absurd h2 (by omega)
  | m + 1, a, i, h1, h2 => by
    simp only [np_writes, List.mem_cons]
    by_cases hia : i = a
    · subst hia
      exact ⟨Or.inl rfl, Or.inr (Or.inl rfl)⟩
    · have hrec := np_writes_mem_of N r p inv_t o m (a + 1) i (by omega) (by omega)
      exact ⟨Or.inr (Or.inr hrec.1), Or.inr (Or.inr hrec.2)⟩

theorem map_fst_val (W : List ZWrite) :
    (W.map (fun w => (w.1, w.2.1))).map Prod.fst = W.map (fun w => w.1) := by
  rw [List.map_map]; rfl

theorem map_fst_sid (W : List ZWrite) :
    (W.map (fun w => (w.1, w.2.2))).map Prod.fst = W.map (fun w => w.1) := by
  rw [List.map_map]; rfl

/-- Full characterization of the non-photosphere branch on a physically
sensible model: the `offset` result, the buffer contents at the far and near
crossing indices of every intersected shell, the range `(0, 2)` of every
slot the caller will read, and the strict decrease of the slot sequence. -/
theorem nonphoto_full_spec (r : List ℝ) (p inv_t : ℝ) (oz : ℤ → ℝ) (sb : ℤ → ℤ)
    (hpair : List.Pairwise (· < ·) r)
    (hp0 : 0 < p)
    (hex : ∃ x ∈ r, p < x)
    (hinv : 0 < inv_t)
    (hrad : ∀ x ∈ r, x * C_INV * inv_t ≤ 1) :
    (nonphoto_scan r p inv_t).1 = (firstShellAbove p r : ℤ) ∧
    (∀ i : ℕ, firstShellAbove p r ≤ i → i < r.length →
      apply_writes oz ((nonphoto_scan r p inv_t).2.map (fun w => (w.1, w.2.1)))
          ((r.length : ℤ) - i - 1) = 1 + zsh r p inv_t i ∧
      apply_writes oz ((nonphoto_scan r p inv_t).2.map (fun w => (w.1, w.2.1)))
          ((r.length : ℤ) + i - 2 * (firstShellAbove p r : ℤ)) = 1 - zsh r p inv_t i ∧
      apply_writes sb ((nonphoto_scan r p inv_t).2.map (fun w => (w.1, w.2.2)))
          ((r.length : ℤ) - i - 1) = (i : ℤ) ∧
      apply_writes sb ((nonphoto_scan r p inv_t).2.map (fun w => (w.1, w.2.2)))
          ((r.length : ℤ) + i - 2 * (firstShellAbove p r : ℤ)) = (i : ℤ)) ∧
    (∀ k : ℤ, 0 ≤ k → k < 2 * ((r.length : ℤ) - (firstShellAbove p r : ℤ)) →
      0 < apply_writes oz
          ((nonphoto_scan r p inv_t).2.map (fun w => (w.1, w.2.1))) k ∧
      apply_writes oz
          ((nonphoto_scan r p inv_t).2.map (fun w => (w.1, w.2.1))) k < 2) ∧
    (∀ k : ℤ, 0 ≤ k → k + 1 < 2 * ((r.length : ℤ) - (firstShellAbove p r : ℤ)) →
      apply_writes oz ((nonphoto_scan r p inv_t).2.map (fun w => (w.1, w.2.1))) (k + 1)
        < apply_writes oz ((nonphoto_scan r p inv_t).2.map (fun w => (w.1, w.2.1))) k) := by
  set off := firstShellAbove p r with hoffdef
  have hofflt : off < r.length := firstShellAbove_lt_length p r hex
  have hrabove : ∀ i, off ≤ i → i < r.length → p < r.getD i 0 := by
    intro i h1 h2
    rcases eq_or_lt_of_le h1 with h1' | h1'
    · rw [← h1']
      exact firstShellAbove_lt p r hofflt
    · exact lt_trans (firstShellAbove_lt p r hofflt) (pairwise_getD hpair h1' h2)
  have hbelow : ∀ i, i < off → zsh r p inv_t i = 0 := fun i hi =>
    zsh_eq_zero inv_t (not_lt.mp (firstShellAbove_not_lt p r i hi))
  have habove : ∀ i, off ≤ i → i < r.length → zsh r p inv_t i ≠ 0 := fun i h1 h2 =>
    ne_of_gt (zsh_pos (le_of_lt hp0) (hrabove i h1 h2) hinv)
  have hradD : ∀ i, i < r.length → r.getD i 0 * C_INV * inv_t ≤ 1 := by
    intro i hi
    apply hrad
    rw [List.getD_eq_getElem?_getD, List.getElem?_eq_getElem hi]
    exact List.getElem_mem hi
  have hz1 : ∀ i, off ≤ i → i < r.length → zsh r p inv_t i < 1 := fun i h1 h2 =>
    zsh_lt_one hp0 (hrabove i h1 h2) hinv (hradD i h2)
  have hz0 : ∀ i, off ≤ i → i < r.length → 0 < zsh r p inv_t i := fun i h1 h2 =>
    zsh_pos (le_of_lt hp0) (hrabove i h1 h2) hinv
  have hmono : ∀ i j, off ≤ i → i < j → j < r.length →
      zsh r p inv_t i < zsh r p inv_t j := fun i j h1 h2 h3 =>
    zsh_strict_mono (le_of_lt hp0) (hrabove i h1 (by omega))
      (pairwise_getD hpair h2 h3) hinv
  have hscan := nonphoto_scan_spec r p inv_t off hofflt hbelow habove
  have hfst : (nonphoto_scan r p inv_t).1 = (off : ℤ) := by rw [hscan]
  have hsnd : (nonphoto_scan r p inv_t).2
      = np_writes r.length r p inv_t off off (r.length - off) := by rw [hscan]
  rw [hsnd, hfst]
  have hvals : ∀ i : ℕ, off ≤ i → i < r.length →
      apply_writes oz ((np_writes r.length r p inv_t off off (r.length - off)).map
          (fun w => (w.1, w.2.1))) ((r.length : ℤ) - i - 1) = 1 + zsh r p inv_t i ∧
      apply_writes oz ((np_writes r.length r p inv_t off off (r.length - off)).map
          (fun w => (w.1, w.2.1))) ((r.length : ℤ) + i - 2 * (off : ℤ))
          = 1 - zsh r p inv_t i ∧
      apply_writes sb ((np_writes r.length r p inv_t off off (r.length - off)).map
          (fun w => (w.1, w.2.2))) ((r.length : ℤ) - i - 1) = (i : ℤ) ∧
      apply_writes sb ((np_writes r.length r p inv_t off off (r.length - off)).map
          (fun w => (w.1, w.2.2))) ((r.length : ℤ) + i - 2 * (off : ℤ)) = (i : ℤ) := by
    intro i h1 h2
    have hmem := np_writes_mem_of r.length r p inv_t off (r.length - off) off i h1
      (by omega)
    have hnd := np_writes_fst_nodup r.length r p inv_t off (r.length - off) off le_rfl
    refine ⟨?_, ?_, ?_, ?_⟩
    · exact apply_writes_nodup_mem _ oz _ _ ((map_fst_val _).symm ▸ hnd)
        (List.mem_map_of_mem _ hmem.1)
    · exact apply_writes_nodup_mem _ oz _ _ ((map_fst_val _).symm ▸ hnd)
        (List.mem_map_of_mem _ hmem.2)
    · exact apply_writes_nodup_mem _ sb _ _ ((map_fst_sid _).symm ▸ hnd)
        (List.mem_map_of_mem _ hmem.1)
    · exact apply_writes_nodup_mem _ sb _ _ ((map_fst_sid _).symm ▸ hnd)
        (List.mem_map_of_mem _ hmem.2)
  refine ⟨rfl, hvals, ?_, ?_⟩
  · intro k hk0 hklt
    by_cases hfar : k < (r.length : ℤ) - off
    · have hoffi : off ≤ r.length - 1 - k.toNat ∧ r.length - 1 - k.toNat < r.length := by
        omega
      have hki : (r.length : ℤ) - (r.length - 1 - k.toNat : ℕ) - 1 = k := by omega
      rw [← hki, (hvals _ hoffi.1 hoffi.2).1]
      have hlt1 := hz1 _ hoffi.1 hoffi.2
      have hgt0 := hz0 _ hoffi.1 hoffi.2
      constructor <;> linarith
    · have hoffi : off ≤ k.toNat + 2 * off - r.length ∧
          k.toNat + 2 * off - r.length < r.length := by omega
      have hki : (r.length : ℤ) + (k.toNat + 2 * off - r.length : ℕ) - 2 * (off : ℤ)
          = k := by omega
      rw [← hki, (hvals _ hoffi.1 hoffi.2).2.1]
      have hlt1 := hz1 _ hoffi.1 hoffi.2
      have hgt0 := hz0 _ hoffi.1 hoffi.2
      constructor <;> linarith
  · intro k hk0 hklt
    by_cases hfar : k + 1 < (r.length : ℤ) - off
    · have hi1 : off ≤ r.length - 1 - (k + 1).toNat ∧
          r.length - 1 - (k + 1).toNat < r.length := by omega
      have hi2 : off ≤ r.length - 1 - k.toNat ∧ r.length - 1 - k.toNat < r.length := by
        omega
      have hki1 : (r.length : ℤ) - (r.length - 1 - (k + 1).toNat : ℕ) - 1 = k + 1 := by
        omega
      have hki2 : (r.length : ℤ) - (r.length - 1 - k.toNat : ℕ) - 1 = k := by omega
      have e1 : apply_writes oz ((np_writes r.length r p inv_t off off
          (r.length - off)).map (fun w => (w.1, w.2.1))) (k + 1)
          = 1 + zsh r p inv_t (r.length - 1 - (k + 1).toNat) := by
        conv_lhs => rw [← hki1]
        exact (hvals _ hi1.1 hi1.2).1
      have e2 : apply_writes oz ((np_writes r.length r p inv_t off off
          (r.length - off)).map (fun w => (w.1, w.2.1))) k
          = 1 + zsh r p inv_t (r.length - 1 - k.toNat) := by
        conv_lhs => rw [← hki2]
        exact (hvals _ hi2.1 hi2.2).1
      rw [e1, e2]
      have := hmono (r.length - 1 - (k + 1).toNat) (r.length - 1 - k.toNat)
        hi1.1 (by omega) hi2.2
      linarith
    · by_cases hmid : k + 1 = (r.length : ℤ) - off
      · have hi2 : off ≤ r.length - 1 - k.toNat ∧ r.length - 1 - k.toNat < r.length := by
          omega
        have hki2 : (r.length : ℤ) - (r.length - 1 - k.toNat : ℕ) - 1 = k := by omega
        have hki1 : (r.length : ℤ) + ((k + 1).toNat + 2 * off - r.length : ℕ)
            - 2 * (off : ℤ) = k + 1 := by omega
        have hi1 : off ≤ (k + 1).toNat + 2 * off - r.length ∧
            (k + 1).toNat + 2 * off - r.length < r.length := by omega
        have e1 : apply_writes oz ((np_writes r.length r p inv_t off off
            (r.length - off)).map (fun w => (w.1, w.2.1))) (k + 1)
            = 1 - zsh r p inv_t ((k + 1).toNat + 2 * off - r.length) := by
          conv_lhs => rw [← hki1]
          exact (hvals _ hi1.1 hi1.2).2.1
        have e2 : apply_writes oz ((np_writes r.length r p inv_t off off
            (r.length - off)).map (fun w => (w.1, w.2.1))) k
            = 1 + zsh r p inv_t (r.length - 1 - k.toNat) := by
          conv_lhs => rw [← hki2]
          exact (hvals _ hi2.1 hi2.2).1
        rw [e1, e2]
        have h1 := hz0 _ hi2.1 hi2.2
        have h2 := hz0 _ hi1.1 hi1.2
        linarith
      · have hi1 : off ≤ (k + 1).toNat + 2 * off - r.length ∧
            (k + 1).toNat + 2 * off - r.length < r.length := by omega
        have hi2 : off ≤ k.toNat + 2 * off - r.length ∧
            k.toNat + 2 * off - r.length < r.length := by omega
        have hki1 : (r.length : ℤ) + ((k + 1).toNat + 2 * off - r.length : ℕ)
            - 2 * (off : ℤ) = k + 1 := by omega
        have hki2 : (r.length : ℤ) + (k.toNat + 2 * off - r.length : ℕ)
            - 2 * (off : ℤ) = k := by omega
        have e1 : apply_writes oz ((np_writes r.length r p inv_t off off
            (r.length - off)).map (fun w => (w.1, w.2.1))) (k + 1)
            = 1 - zsh r p inv_t ((k + 1).toNat + 2 * off - r.length) := by
          conv_lhs => rw [← hki1]
          exact (hvals _ hi1.1 hi1.2).2.1
        have e2 : apply_writes oz ((np_writes r.length r p inv_t off off
            (r.length - off)).map (fun w => (w.1, w.2.1))) k
            = 1 - zsh r p inv_t (k.toNat + 2 * off - r.length) := by
          conv_lhs => rw [← hki2]
          exact (hvals _ hi2.1 hi2.2).2.1
        rw [e1, e2]
        have := hmono (k.toNat + 2 * off - r.length) ((k + 1).toNat + 2 * off - r.length)
          hi2.1 (by omega) hi1.2
        linarith

/-- Unfolding of `populate_z` in the non-photosphere branch. -/
theorem populate_z_of_gt (s : StorageModel) (p : ℝ) (oz : ℤ → ℝ) (sb : ℤ → ℤ)
    (h : ¬ p ≤ s.r_inner0) :
    populate_z s p oz sb
      = (apply_writes oz ((nonphoto_scan s.r_outer p s.inverse_time_explosion).2.map
            (fun w => (w.1, w.2.1))),
         apply_writes sb ((nonphoto_scan s.r_outer p s.inverse_time_explosion).2.map
            (fun w => (w.1, w.2.2))),
         2 * ((s.no_of_shells : ℤ)
            - (nonphoto_scan s.r_outer p s.inverse_time_explosion).1)) := by
  simp only [populate_z]
  rw [if_neg h]

/-- Unfolding of `populate_z` in the photosphere branch. -/
theorem populate_z_of_le (s : StorageModel) (p : ℝ) (oz : ℤ → ℝ) (sb : ℤ → ℤ)
    (h : p ≤ s.r_inner0) :
    populate_z s p oz sb
      = (apply_writes oz ((photo_writes s.r_outer p s.inverse_time_explosion).map
            (fun w => (w.1, w.2.1))),
         apply_writes sb ((photo_writes s.r_outer p s.inverse_time_explosion).map
            (fun w => (w.1, w.2.2))),
         (s.no_of_shells : ℤ)) := by
  simp only [populate_z]
  rw [if_pos h]

theorem photo_writes_fst (r : List ℝ) (p inv_t : ℝ) :
    (photo_writes r p inv_t).map (fun w => w.1)
      = (List.range r.length).map (fun i : ℕ => (i : ℤ)) := by
  rw [photo_writes, List.map_map]
  rfl

/-- Without any positivity assumption on `p`, the half-chord is below `1`
whenever the shell radius is within the light distance (`r·C_INV·inv_t < 1`):
either the shell is missed (`z = 0`), or the square root argument is
non-positive (`z = 0` again), or `0 < r` and `sqrt(r²-p²) ≤ r`. -/
theorem zsh_lt_one_of_rad {r : List ℝ} {p inv_t : ℝ} {i : ℕ}
    (hinv : 0 < inv_t) (hrad : r.getD i 0 * C_INV * inv_t < 1) :
    zsh r p inv_t i < 1 := by
  rw [zsh, calculate_z]
  by_cases h : r.getD i 0 > p
  · rw [if_pos h]
    by_cases hsq : r.getD i 0 * r.getD i 0 - p * p ≤ 0
    · rw [Real.sqrt_eq_zero_of_nonpos hsq]
      norm_num
    · push_neg at hsq
      have hr0 : 0 < r.getD i 0 := by nlinarith
      have hs : Real.sqrt (r.getD i 0 * r.getD i 0 - p * p) ≤ r.getD i 0 := by
        have hmono := Real.sqrt_le_sqrt
          (show r.getD i 0 * r.getD i 0 - p * p ≤ r.getD i 0 * r.getD i 0 by nlinarith)
        rwa [Real.sqrt_mul_self (le_of_lt hr0)] at hmono
      calc Real.sqrt (r.getD i 0 * r.getD i 0 - p * p) * C_INV * inv_t
          ≤ r.getD i 0 * C_INV * inv_t := by
            apply mul_le_mul_of_nonneg_right _ (le_of_lt hinv)
            exact mul_le_mul_of_nonneg_right hs (le_of_lt C_INV_pos)
        _ < 1 := hrad
  · rw [if_neg h]
    norm_num

/-! ### Concrete models used by witnesses and counterexamples -/

/-- A two-shell model: photosphere radius 1, outer radii 2 and 3, unit inverse
explosion time, no lines. -/
def m23 : StorageModel := ⟨1, [2, 3], 1, [], fun _ => 0⟩

/-- A two-shell model with radii far beyond the light distance
(`inverse_time_explosion = 1e12`): photosphere radius 3, outer radii 4, 5. -/
def m45 : StorageModel := ⟨3, [4, 5], 1e12, [], fun _ => 0⟩

/-- An *invalid* two-shell model: outer radii `[5, 3]` are not increasing. -/
def mbad : StorageModel := ⟨1, [5, 3], 1, [], fun _ => 0⟩

/-! ### Claims -/

/-- C9: `calculate_z` returns exactly `0` whenever `r ≤ p` (including the
tangent case `r = p`), taking no square root there; when `r > p` it returns
`sqrt(r² - p²) * C_INV * inv_t`. -/
theorem c9_calculate_z_tangent (r p inv_t : ℝ) :
    (r ≤ p → calculate_z r p inv_t = 0) ∧
    (r > p → calculate_z r p inv_t = Real.sqrt (r * r - p * p) * C_INV * inv_t) := by
  constructor
  · intro h
    simp only [calculate_z, if_neg (not_lt.mpr h)]
  · intro h
    simp only [calculate_z, if_pos h]

/-- Witness for C9 at the tangent input `r = p = 1` and the chord input
`r = 5 > p = 4`. -/
theorem c9_calculate_z_tangent_witness :
    calculate_z 1 1 1 = 0 ∧
    calculate_z 5 4 1 = Real.sqrt (5 * 5 - 4 * 4) * C_INV * 1 :=
  ⟨(c9_calculate_z_tangent 1 1 1).1 (by norm_num),
   (c9_calculate_z_tangent 5 4 1).2 (by norm_num)⟩

/-- C1: the `p_idx` loop writes `I_nu` only at indices `1 .. N-1`, so the
slot `I_nu[0]` that `trapezoid_integration` reads as the left boundary sample
still holds the buffer's *initial* (uninitialized stack) content `st.1 0` —
not necessarily `0` as the claim states; the output value is
`8π² · trapezoid_integration` of that buffer. -/
theorem c1_left_boundary_holds_initial_content (s : StorageModel)
    (att_S_ul : ℤ → ℝ) (iT nu : ℝ) (N : ℕ) (st : ThreadState) :
    (p_loop s (exp_tau_of s) att_S_ul iT nu (calculate_p_values s N) N st).1 0
        = st.1 0 ∧
    L_bin s att_S_ul iT nu N st =
      8 * Real.pi * Real.pi *
        trapezoid_integration
          (p_loop s (exp_tau_of s) att_S_ul iT nu (calculate_p_values s N) N st).1
          (R_max s / (N : ℝ)) N := by
  refine ⟨?_, rfl⟩
  apply foldl_loop_step_fst_zero
  intro x hx
  have := List.mem_range'_1.mp hx
  omega

/-- C2: for a strictly descending line list, each path segment locates via
`line_search` the first line at or below `nu·z[i]`, then applies
`I ← I·exp_tau[line] + source_function[line]` in descending-frequency (list)
order, stopping at the first line below `nu·z[i+1]`; the processed lines are
precisely those in the segment's Doppler window `[nu·z[i+1], nu·z[i]]` of the
shell's table row (table indices `shell_id·size_line + line`). -/
theorem c2_segment_walk_is_window_fold (s : StorageModel)
    (hs : s.line_list_nu.Sorted (· > ·))
    (exp_tau att_S_ul : ℤ → ℝ) (nu z_i z_i1 : ℝ) (sid : ℤ) (I : ℝ) :
    segment s exp_tau att_S_ul nu z_i z_i1 sid I
      = (windowLines s.line_list_nu (nu * z_i) (nu * z_i1)).foldl
          (fun J q => J * exp_tau (sid * (s.no_of_lines : ℤ) + (q.1 : ℤ))
            + att_S_ul (sid * (s.no_of_lines : ℤ) + (q.1 : ℤ))) I := by
  have h := line_walk_window exp_tau att_S_ul (nu * z_i1) (nu * z_i)
    (sid * (s.no_of_lines : ℤ)) s.line_list_nu hs 0 I
  simp only [Nat.cast_zero, add_zero] at h
  exact h

/-- Witness for C2 on a concrete three-line list `[4, 3, 2]` with window
`[1·1, 1·7/2] = [1, 7/2]` (lines 3 and 2 inside). -/
theorem c2_segment_walk_witness :
    segment ⟨1, [2], 1, [4, 3, 2], fun _ => 0⟩ (fun _ => 2) (fun _ => 5)
        1 (7/2) 1 0 9
      = (windowLines [4, 3, 2] (1 * (7/2)) (1 * 1)).foldl
          (fun J q => J * (fun _ => (2:ℝ)) (0 * ((3:ℕ) : ℤ) + (q.1 : ℤ))
            + (fun _ => (5:ℝ)) (0 * ((3:ℕ) : ℤ) + (q.1 : ℤ))) 9 :=
  c2_segment_walk_is_window_fold ⟨1, [2], 1, [4, 3, 2], fun _ => 0⟩
    (by norm_num [List.sorted_cons]) (fun _ => 2) (fun _ => 5) 1 (7/2) 1 0 9

/-- C6: if no spectral line falls inside any segment's Doppler window, the
per-ray intensity equals its seed — the black-body intensity when
`p ≤ r_inner[0]`, else `0` — multiplied by `p`. -/
theorem c6_seed_when_no_crossings (s : StorageModel) (E A : ℤ → ℝ)
    (iT nu p : ℝ) (zbuf : ℤ → ℝ) (sbuf : ℤ → ℤ)
    (h : ∀ i : ℕ, i < ((populate_z s p zbuf sbuf).2.2 - 1).toNat →
      windowLines s.line_list_nu (nu * (populate_z s p zbuf sbuf).1 (i : ℤ))
        (nu * (populate_z s p zbuf sbuf).1 ((i : ℤ) + 1)) = []) :
    per_ray s E A iT nu p zbuf sbuf
      = (if p ≤ s.r_inner0 then intensity_black_body nu iT else 0) * p := by
  simp only [per_ray]
  rw [foldl_fix _
    (fun i hi I => segment_of_window_empty s E A nu _ _ _ I (h i (List.mem_range.mp hi)))]

/-- Witness for C6: with an empty line list every window is empty, so the ray
returns the black-body seed scaled by `p = 1/2`. -/
theorem c6_seed_witness :
    per_ray ⟨1, [2], 1, [], fun _ => 0⟩ (fun _ => 0) (fun _ => 0) 1 1 (1/2)
        (fun _ => 0) (fun _ => 0)
      = (if (1:ℝ)/2 ≤ (1:ℝ) then intensity_black_body 1 1 else 0) * (1/2) :=
  c6_seed_when_no_crossings ⟨1, [2], 1, [], fun _ => 0⟩ (fun _ => 0) (fun _ => 0)
    1 1 (1/2) (fun _ => 0) (fun _ => 0) (fun _ _ => rfl)

/-- C5: for a shell model with strictly increasing outer radii all strictly
below the light distance (`r·C_INV·inv_t < 1`, with a positive explosion
time) and `p ≤ r_inner[0]`, `populate_z` returns count = number of shells,
writing for shell `i` (at slot `i`, i.e. in increasing shell order) the single
near-side crossing `1 - z_i` tagged with shell id `i`, and every written value
lies in `(0, 1]`. -/
theorem c5_photosphere_case (s : StorageModel) (p : ℝ) (oz : ℤ → ℝ) (sb : ℤ → ℤ)
    (hpair : List.Pairwise (· < ·) s.r_outer)
    (hinv : 0 < s.inverse_time_explosion)
    (hrad : ∀ x ∈ s.r_outer, x * C_INV * s.inverse_time_explosion < 1)
    (hple : p ≤ s.r_inner0) :
    (populate_z s p oz sb).2.2 = (s.no_of_shells : ℤ) ∧
    (∀ i : ℕ, i < s.no_of_shells →
      (populate_z s p oz sb).1 (i : ℤ)
          = 1 - zsh s.r_outer p s.inverse_time_explosion i ∧
      (populate_z s p oz sb).2.1 (i : ℤ) = (i : ℤ) ∧
      0 < (populate_z s p oz sb).1 (i : ℤ) ∧
      (populate_z s p oz sb).1 (i : ℤ) ≤ 1) := by
  rw [populate_z_of_le s p oz sb hple]
  refine ⟨rfl, ?_⟩
  intro i hi
  have hiL : i < s.r_outer.length := hi
  have hmem : ((i : ℤ), 1 - zsh s.r_outer p s.inverse_time_explosion i, (i : ℤ))
      ∈ photo_writes s.r_outer p s.inverse_time_explosion :=
    List.mem_map_of_mem _ (List.mem_range.mpr hiL)
  have hnd : ((photo_writes s.r_outer p s.inverse_time_explosion).map
      (fun w => w.1)).Nodup := by
    rw [photo_writes_fst]
    exact (List.nodup_range _).map Nat.cast_injective
  have hA : apply_writes oz ((photo_writes s.r_outer p s.inverse_time_explosion).map
      (fun w => (w.1, w.2.1))) (i : ℤ)
      = 1 - zsh s.r_outer p s.inverse_time_explosion i :=
    apply_writes_nodup_mem _ oz _ _ ((map_fst_val _).symm ▸ hnd)
      (List.mem_map_of_mem _ hmem)
  have hS : apply_writes sb ((photo_writes s.r_outer p s.inverse_time_explosion).map
      (fun w => (w.1, w.2.2))) (i : ℤ) = (i : ℤ) :=
    apply_writes_nodup_mem _ sb _ _ ((map_fst_sid _).symm ▸ hnd)
      (List.mem_map_of_mem _ hmem)
  have hradD : s.r_outer.getD i 0 * C_INV * s.inverse_time_explosion < 1 := by
    apply hrad
    rw [List.getD_eq_getElem?_getD, List.getElem?_eq_getElem hiL]
    exact List.getElem_mem hiL
  have hlt1 := zsh_lt_one_of_rad (p := p) hinv hradD
  have hge0 := zsh_nonneg (r := s.r_outer) (p := p) (i := i) (le_of_lt hinv)
  refine ⟨hA, hS, ?_, ?_⟩
  · show 0 < apply_writes oz ((photo_writes s.r_outer p s.inverse_time_explosion).map
      (fun w => (w.1, w.2.1))) (i : ℤ)
    rw [hA]; linarith
  · show apply_writes oz ((photo_writes s.r_outer p s.inverse_time_explosion).map
      (fun w => (w.1, w.2.1))) (i : ℤ) ≤ 1
    rw [hA]; linarith

/-- Witness for C5 on the concrete model `m23` with `p = 1`: the returned
count is the shell count `2`. -/
theorem c5_photosphere_witness :
    (populate_z m23 1 (fun _ => 0) (fun _ => 0)).2.2 = ((2 : ℕ) : ℤ) ∧
    0 < (populate_z m23 1 (fun _ => 0) (fun _ => 0)).1 (0 : ℤ) := by
  have h := c5_photosphere_case m23 1 (fun _ => 0) (fun _ => 0)
    (by norm_num [m23, List.pairwise_cons])
    (by norm_num [m23])
    (by
      intro x hx
      simp only [m23, List.mem_cons, List.not_mem_nil, or_false] at hx
      rcases hx with rfl | rfl <;> norm_num [C_INV, m23])
    (by norm_num [m23])
  exact ⟨h.1, ((h.2 0 (by norm_num [m23, StorageModel.no_of_shells])).2.2.1)⟩

/-- C3 as amended: with the physical side conditions the counterexample shows
necessary (`0 ≤ r_inner[0]`, positive inverse explosion time, and all outer
radii within the light distance, `r·C_INV·inv_t ≤ 1`), for strictly
increasing outer radii and `r_inner[0] < p < r_outer[N-1]` the
non-photosphere branch writes, for each intersected shell `i`, the far-side
crossing `1+z_i` at index `N-i-1` and the near-side crossing `1-z_i` at index
`N+i-2·offset` (both tagged with shell id `i`), returns
`count = 2·(N - offset)` with `offset` the first intersected shell, and the
resulting `z` array on `[0, count)` is strictly decreasing with all values in
`(0, 2)`. -/
theorem c3_nonphoto_index_map (s : StorageModel) (p : ℝ) (oz : ℤ → ℝ) (sb : ℤ → ℤ)
    (hpair : List.Pairwise (· < ·) s.r_outer)
    (h0 : 0 ≤ s.r_inner0) (hlow : s.r_inner0 < p)
    (hhigh : ∃ x ∈ s.r_outer, p < x)
    (hinv : 0 < s.inverse_time_explosion)
    (hrad : ∀ x ∈ s.r_outer, x * C_INV * s.inverse_time_explosion ≤ 1) :
    (populate_z s p oz sb).2.2
        = 2 * ((s.no_of_shells : ℤ) - (firstShellAbove p s.r_outer : ℤ)) ∧
    (∀ i : ℕ, firstShellAbove p s.r_outer ≤ i → i < s.no_of_shells →
      (populate_z s p oz sb).1 ((s.no_of_shells : ℤ) - i - 1)
          = 1 + zsh s.r_outer p s.inverse_time_explosion i ∧
      (populate_z s p oz sb).1
          ((s.no_of_shells : ℤ) + i - 2 * (firstShellAbove p s.r_outer : ℤ))
          = 1 - zsh s.r_outer p s.inverse_time_explosion i ∧
      (populate_z s p oz sb).2.1 ((s.no_of_shells : ℤ) - i - 1) = (i : ℤ) ∧
      (populate_z s p oz sb).2.1
          ((s.no_of_shells : ℤ) + i - 2 * (firstShellAbove p s.r_outer : ℤ))
          = (i : ℤ)) ∧
    (∀ k : ℤ, 0 ≤ k → k < (populate_z s p oz sb).2.2 →
      0 < (populate_z s p oz sb).1 k ∧ (populate_z s p oz sb).1 k < 2) ∧
    (∀ k : ℤ, 0 ≤ k → k + 1 < (populate_z s p oz sb).2.2 →
      (populate_z s p oz sb).1 (k + 1) < (populate_z s p oz sb).1 k) := by
  have hfull := nonphoto_full_spec s.r_outer p s.inverse_time_explosion oz sb
    hpair (lt_of_le_of_lt h0 hlow) hhigh hinv hrad
  have hbr := populate_z_of_gt s p oz sb (not_le.mpr hlow)
  rw [hbr]
  refine ⟨?_, hfull.2.1, ?_, ?_⟩
  · show 2 * ((s.no_of_shells : ℤ)
        - (nonphoto_scan s.r_outer p s.inverse_time_explosion).1) = _
    rw [hfull.1]
  · intro k hk0 hklt
    apply hfull.2.2.1 k hk0
    have hklt' : k < 2 * ((s.no_of_shells : ℤ)
        - (nonphoto_scan s.r_outer p s.inverse_time_explosion).1) := hklt
    rwa [hfull.1] at hklt'
  · intro k hk0 hklt
    apply hfull.2.2.2 k hk0
    have hklt' : k + 1 < 2 * ((s.no_of_shells : ℤ)
        - (nonphoto_scan s.r_outer p s.inverse_time_explosion).1) := hklt
    rwa [hfull.1] at hklt'

/-- Witness for C3 (amended) on the concrete model `m23` at `p = 3/2`:
count is `2·(2-0) = 4`. -/
theorem c3_nonphoto_witness :
    (populate_z m23 (3/2) (fun _ => 0) (fun _ => 0)).2.2
      = 2 * ((m23.no_of_shells : ℤ) - (firstShellAbove (3/2) m23.r_outer : ℤ)) :=
  (c3_nonphoto_index_map m23 (3/2) (fun _ => 0) (fun _ => 0)
    (by norm_num [m23, List.pairwise_cons])
    (by norm_num [m23]) (by norm_num [m23])
    ⟨2, by simp [m23], by norm_num⟩
    (by norm_num [m23])
    (by
      intro x hx
      simp only [m23, List.mem_cons, List.not_mem_nil, or_false] at hx
      rcases hx with rfl | rfl <;> norm_num [C_INV, m23])).1

/-- Counterexample to C3 as stated: the model `m45` satisfies every hypothesis
of C3 (strictly increasing radii, `r_inner[0] = 3 < p = 4 < 5 = r_outer[1]`),
yet because the radii exceed the light distance
(`inverse_time_explosion = 1e12`) the near-side value written at slot 1 is
`1 - z₁ < 0`, refuting "all values in (0, 2)" for the slots `[0, count)`. -/
theorem c3_range_counterexample :
    List.Pairwise (· < ·) m45.r_outer ∧
    m45.r_inner0 < 4 ∧ (4:ℝ) < 5 ∧
    (populate_z m45 4 (fun _ => 0) (fun _ => 0)).2.2 = 2 ∧
    ¬ (∀ k : ℤ, 0 ≤ k → k < (populate_z m45 4 (fun _ => 0) (fun _ => 0)).2.2 →
        0 < (populate_z m45 4 (fun _ => 0) (fun _ => 0)).1 k ∧
        (populate_z m45 4 (fun _ => 0) (fun _ => 0)).1 k < 2) := by
  have hsqrt : Real.sqrt (5 * 5 - 4 * 4) = 3 := by
    rw [show (5 * 5 - 4 * 4 : ℝ) = 3 ^ 2 by norm_num,
      Real.sqrt_sq (by norm_num : (0:ℝ) ≤ 3)]
  have hz0 : calculate_z ((4:ℝ)) 4 1e12 = 0 := by
    rw [calculate_z, if_neg (by norm_num)]
  have hz1 : calculate_z (5:ℝ) 4 1e12 = 3 * C_INV * 1e12 := by
    rw [calculate_z, if_pos (by norm_num : (5:ℝ) > 4), hsqrt]
  have hstep0 : nonphoto_step 2 [(4:ℝ), 5] 4 1e12 (-1, []) 0 = (-1, []) :=
    if_pos hz0
  have hstep1 : nonphoto_step 2 [(4:ℝ), 5] 4 1e12 (-1, []) 1
      = (1, [((0:ℤ), 1 + 3 * C_INV * 1e12, 1), ((1:ℤ), 1 - 3 * C_INV * 1e12, 1)]) := by
    simp only [nonphoto_step]
    rw [if_neg (show ¬ (calculate_z (List.getD [(4:ℝ), 5] 1 0) 4 1e12 = 0) from by
      rw [show calculate_z (List.getD [(4:ℝ), 5] 1 0) 4 1e12 = 3 * C_INV * 1e12 from hz1]
      norm_num [C_INV])]
    rw [show calculate_z (List.getD [(4:ℝ), 5] 1 0) 4 1e12 = 3 * C_INV * 1e12 from hz1]
    norm_num
  have hscan : nonphoto_scan m45.r_outer 4 m45.inverse_time_explosion
      = (1, [((0:ℤ), 1 + 3 * C_INV * 1e12, 1), ((1:ℤ), 1 - 3 * C_INV * 1e12, 1)]) := by
    show (List.range (List.length [(4:ℝ), 5])).foldl
      (nonphoto_step (List.length [(4:ℝ), 5]) [(4:ℝ), 5] 4 1e12) (-1, []) = _
    rw [show List.length [(4:ℝ), 5] = 2 from rfl,
      show List.range 2 = [0, 1] from rfl,
      List.foldl_cons, List.foldl_cons, List.foldl_nil, hstep0, hstep1]
  have hbr := populate_z_of_gt m45 4 (fun _ => 0) (fun _ => 0)
    (by norm_num [m45])
  have hcount : (populate_z m45 4 (fun _ => 0) (fun _ => 0)).2.2 = 2 := by
    rw [hbr]
    show 2 * ((m45.no_of_shells : ℤ)
        - (nonphoto_scan m45.r_outer 4 m45.inverse_time_explosion).1) = 2
    rw [hscan]
    norm_num [m45, StorageModel.no_of_shells]
  have hval : (populate_z m45 4 (fun _ => 0) (fun _ => 0)).1 1
      = 1 - 3 * C_INV * 1e12 := by
    rw [hbr]
    show apply_writes (fun _ => 0)
      ((nonphoto_scan m45.r_outer 4 m45.inverse_time_explosion).2.map
        (fun w => (w.1, w.2.1))) 1 = _
    rw [hscan]
    simp [apply_writes, Function.update]
  refine ⟨by norm_num [m45, List.pairwise_cons], by norm_num [m45], by norm_num,
    hcount, ?_⟩
  intro hcon
  have h1 := (hcon 1 (by norm_num) (by rw [hcount]; norm_num)).1
  rw [hval] at h1
  norm_num [C_INV] at h1

/-- C4 as amended: the claim's "p strictly less than the photosphere radius"
must read "strictly greater" (the counterexample shows the photosphere branch
returns `N`, not `2·(N − offset)`); with `r_inner[0] < p < r_outer[N-1]` and
the same physical side conditions as C3, the count equals `2·(N − offset)`
where `offset` is the first shell with `r_outer > p`, all slot values on
`[0, count)` lie in `(0, 2)`, and the sequence is strictly decreasing. -/
theorem c4_geometry_consistency (s : StorageModel) (p : ℝ) (oz : ℤ → ℝ)
    (sb : ℤ → ℤ)
    (hpair : List.Pairwise (· < ·) s.r_outer)
    (h0 : 0 ≤ s.r_inner0) (hlow : s.r_inner0 < p)
    (hhigh : ∃ x ∈ s.r_outer, p < x)
    (hinv : 0 < s.inverse_time_explosion)
    (hrad : ∀ x ∈ s.r_outer, x * C_INV * s.inverse_time_explosion ≤ 1) :
    (populate_z s p oz sb).2.2
        = 2 * ((s.no_of_shells : ℤ) - (firstShellAbove p s.r_outer : ℤ)) ∧
    (∀ k : ℤ, 0 ≤ k → k < (populate_z s p oz sb).2.2 →
      0 < (populate_z s p oz sb).1 k ∧ (populate_z s p oz sb).1 k < 2) ∧
    (∀ k : ℤ, 0 ≤ k → k + 1 < (populate_z s p oz sb).2.2 →
      (populate_z s p oz sb).1 (k + 1) < (populate_z s p oz sb).1 k) := by
  have hfull := nonphoto_full_spec s.r_outer p s.inverse_time_explosion oz sb
    hpair (lt_of_le_of_lt h0 hlow) hhigh hinv hrad
  have hbr := populate_z_of_gt s p oz sb (not_le.mpr hlow)
  rw [hbr]
  refine ⟨?_, ?_, ?_⟩
  · show 2 * ((s.no_of_shells : ℤ)
        - (nonphoto_scan s.r_outer p s.inverse_time_explosion).1) = _
    rw [hfull.1]
  · intro k hk0 hklt
    apply hfull.2.2.1 k hk0
    have hklt' : k < 2 * ((s.no_of_shells : ℤ)
        - (nonphoto_scan s.r_outer p s.inverse_time_explosion).1) := hklt
    rwa [hfull.1] at hklt'
  · intro k hk0 hklt
    apply hfull.2.2.2 k hk0
    have hklt' : k + 1 < 2 * ((s.no_of_shells : ℤ)
        - (nonphoto_scan s.r_outer p s.inverse_time_explosion).1) := hklt
    rwa [hfull.1] at hklt'

/-- Witness for C4 (amended) on `m23` at `p = 5/2` (between the two outer
radii, so `offset = 1` and the count is `2`). -/
theorem c4_geometry_witness :
    (populate_z m23 (5/2) (fun _ => 0) (fun _ => 0)).2.2
      = 2 * ((m23.no_of_shells : ℤ) - (firstShellAbove (5/2) m23.r_outer : ℤ)) :=
  (c4_geometry_consistency m23 (5/2) (fun _ => 0) (fun _ => 0)
    (by norm_num [m23, List.pairwise_cons])
    (by norm_num [m23]) (by norm_num [m23])
    ⟨3, by simp [m23], by norm_num⟩
    (by norm_num [m23])
    (by
      intro x hx
      simp only [m23, List.mem_cons, List.not_mem_nil, or_false] at hx
      rcases hx with rfl | rfl <;> norm_num [C_INV, m23])).1

/-- Counterexample to C4 as stated: for `p = 1/2` strictly below the
photosphere radius `r_inner[0] = 1` of `m23`, the photosphere branch runs and
returns `N = 2`, while the first shell with `r_outer > p` is shell `0`, so
the claimed count `2·(N − offset) = 4` is wrong. -/
theorem c4_count_counterexample :
    (populate_z m23 (1/2) (fun _ => 0) (fun _ => 0)).2.2 = (m23.no_of_shells : ℤ) ∧
    firstShellAbove (1/2) m23.r_outer = 0 ∧
    ¬ ((populate_z m23 (1/2) (fun _ => 0) (fun _ => 0)).2.2
        = 2 * ((m23.no_of_shells : ℤ) - (firstShellAbove (1/2) m23.r_outer : ℤ))) := by
  have h1 : (populate_z m23 (1/2) (fun _ => 0) (fun _ => 0)).2.2
      = (m23.no_of_shells : ℤ) := by
    rw [populate_z_of_le m23 (1/2) _ _ (by norm_num [m23])]
  have h2 : firstShellAbove (1/2) m23.r_outer = 0 := by
    show firstShellAbove (1/2) [2, 3] = 0
    rw [firstShellAbove, if_pos (by norm_num : (1:ℝ)/2 < 2)]
  refine ⟨h1, h2, ?_⟩
  rw [h1, h2]
  norm_num [m23, StorageModel.no_of_shells]

/-- C10 as amended: for strictly increasing outer radii, `0 ≤ p` actually
below the outermost radius (`p < r_outer[N-1]`) and a positive inverse
explosion time, the non-photosphere loop's write indices are exactly
`0 .. 2·(N - offset) - 1`, each written exactly once (`Nodup` + coverage),
and the count is at most the buffer capacity `2N`.  The restriction
`p < r_outer[N-1]` is necessary: at `p = r_outer[N-1]` — reached by the last
ray of every evaluation — no shell is intersected, nothing is written, and
the returned count `2·(N+1)` exceeds `2N` (see the counterexample). -/
theorem c10_write_index_coverage (s : StorageModel) (p : ℝ)
    (hpair : List.Pairwise (· < ·) s.r_outer)
    (hp0 : 0 ≤ p)
    (hhigh : ∃ x ∈ s.r_outer, p < x)
    (hinv : 0 < s.inverse_time_explosion) :
    (nonphoto_scan s.r_outer p s.inverse_time_explosion).1
        = (firstShellAbove p s.r_outer : ℤ) ∧
    ((nonphoto_scan s.r_outer p s.inverse_time_explosion).2.map
        (fun w => w.1)).Nodup ∧
    (∀ k : ℤ, k ∈ (nonphoto_scan s.r_outer p s.inverse_time_explosion).2.map
        (fun w => w.1) ↔
      0 ≤ k ∧ k < 2 * ((s.no_of_shells : ℤ) - (firstShellAbove p s.r_outer : ℤ))) ∧
    2 * ((s.no_of_shells : ℤ) - (firstShellAbove p s.r_outer : ℤ))
        ≤ 2 * (s.no_of_shells : ℤ) := by
  set off := firstShellAbove p s.r_outer with hoffdef
  have hofflt : off < s.r_outer.length := firstShellAbove_lt_length p s.r_outer hhigh
  have hrabove : ∀ i, off ≤ i → i < s.r_outer.length → p < s.r_outer.getD i 0 := by
    intro i h1 h2
    rcases eq_or_lt_of_le h1 with h1' | h1'
    · rw [← h1']
      exact firstShellAbove_lt p s.r_outer hofflt
    · exact lt_trans (firstShellAbove_lt p s.r_outer hofflt)
        (pairwise_getD hpair h1' h2)
  have hbelow : ∀ i, i < off → zsh s.r_outer p s.inverse_time_explosion i = 0 :=
    fun i hi => zsh_eq_zero _ (not_lt.mp (firstShellAbove_not_lt p s.r_outer i hi))
  have habove : ∀ i, off ≤ i → i < s.r_outer.length →
      zsh s.r_outer p s.inverse_time_explosion i ≠ 0 := fun i h1 h2 =>
    ne_of_gt (zsh_pos hp0 (hrabove i h1 h2) hinv)
  have hscan := nonphoto_scan_spec s.r_outer p s.inverse_time_explosion off
    hofflt hbelow habove
  have hfst : (nonphoto_scan s.r_outer p s.inverse_time_explosion).1 = (off : ℤ) := by
    rw [hscan]
  have hsnd : (nonphoto_scan s.r_outer p s.inverse_time_explosion).2
      = np_writes s.r_outer.length s.r_outer p s.inverse_time_explosion off off
          (s.r_outer.length - off) := by rw [hscan]
  refine ⟨hfst, ?_, ?_, ?_⟩
  · rw [hsnd]
    exact np_writes_fst_nodup s.r_outer.length s.r_outer p
      s.inverse_time_explosion off (s.r_outer.length - off) off le_rfl
  · intro k
    rw [hsnd, np_writes_fst_mem]
    show _ ↔ 0 ≤ k ∧ k < 2 * ((s.r_outer.length : ℤ) - (off : ℤ))
    constructor
    · rintro ⟨i, h1, h2, h3 | h3⟩ <;> omega
    · rintro ⟨hk0, hklt⟩
      by_cases hfar : k < (s.r_outer.length : ℤ) - off
      · exact ⟨s.r_outer.length - 1 - k.toNat, by omega, by omega, Or.inl (by omega)⟩
      · exact ⟨k.toNat + 2 * off - s.r_outer.length, by omega, by omega,
          Or.inr (by omega)⟩
  · show 2 * ((s.r_outer.length : ℤ) - (off : ℤ)) ≤ 2 * (s.r_outer.length : ℤ)
    omega

/-- Witness for C10 (amended) on `m23` at `p = 3/2`: the count fits the `2N`
buffers. -/
theorem c10_write_index_witness :
    2 * ((m23.no_of_shells : ℤ) - (firstShellAbove (3/2) m23.r_outer : ℤ))
      ≤ 2 * (m23.no_of_shells : ℤ) :=
  (c10_write_index_coverage m23 (3/2)
    (by norm_num [m23, List.pairwise_cons])
    (by norm_num)
    ⟨2, by simp [m23], by norm_num⟩
    (by norm_num [m23])).2.2.2

/-- Counterexample to C10 as stated (quantifying over *every* impact
parameter): at `p = 3 = r_outer[N-1]` — which `_formal_integral` reaches at
its last ray, since `pp[N-1] = R_max` — no shell is intersected, the loop
writes nothing, `offset` stays `-1`, and the count `2·(N-(-1)) = 6` exceeds
the caller buffer capacity `2N = 4`; in particular not every index
`0 ≤ k < count` is written (index 0 is not). -/
theorem c10_unwritten_counterexample :
    nonphoto_scan m23.r_outer 3 m23.inverse_time_explosion = (-1, []) ∧
    (populate_z m23 3 (fun _ => 0) (fun _ => 0)).2.2 = 6 ∧
    2 * (m23.no_of_shells : ℤ) < 6 ∧
    ¬ (∀ k : ℤ, 0 ≤ k → k < (populate_z m23 3 (fun _ => 0) (fun _ => 0)).2.2 →
        k ∈ (nonphoto_scan m23.r_outer 3 m23.inverse_time_explosion).2.map
          (fun w => w.1)) := by
  have hz2 : calculate_z ((2:ℝ)) 3 1 = 0 := by
    rw [calculate_z, if_neg (by norm_num)]
  have hz3 : calculate_z ((3:ℝ)) 3 1 = 0 := by
    rw [calculate_z, if_neg (by norm_num)]
  have hstep0 : nonphoto_step 2 [(2:ℝ), 3] 3 1 (-1, []) 0 = (-1, []) := if_pos hz2
  have hstep1 : nonphoto_step 2 [(2:ℝ), 3] 3 1 (-1, []) 1 = (-1, []) := if_pos hz3
  have hscan : nonphoto_scan m23.r_outer 3 m23.inverse_time_explosion = (-1, []) := by
    show (List.range (List.length [(2:ℝ), 3])).foldl
      (nonphoto_step (List.length [(2:ℝ), 3]) [(2:ℝ), 3] 3 1) (-1, []) = _
    rw [show List.length [(2:ℝ), 3] = 2 from rfl,
      show List.range 2 = [0, 1] from rfl,
      List.foldl_cons, List.foldl_cons, List.foldl_nil, hstep0, hstep1]
  have hcount : (populate_z m23 3 (fun _ => 0) (fun _ => 0)).2.2 = 6 := by
    rw [populate_z_of_gt m23 3 _ _ (by norm_num [m23])]
    show 2 * ((m23.no_of_shells : ℤ)
        - (nonphoto_scan m23.r_outer 3 m23.inverse_time_explosion).1) = 6
    rw [hscan]
    norm_num [m23, StorageModel.no_of_shells]
  refine ⟨hscan, hcount, by norm_num [m23, StorageModel.no_of_shells], ?_⟩
  intro hcon
  have h0 := hcon 0 le_rfl (by rw [hcount]; norm_num)
  rw [hscan] at h0
  simp at h0

/-- C8: the evaluator performs no boundary validation and has no error path:
fed the invalid model `mbad` (non-monotonic shell radii `[5, 3]`) at `p = 4`,
`populate_z` silently computes — it returns count `4` while having written
only result slots `1` and `2`, so the recurrence walk (which reads slots
`0 .. count-1`) consumes never-written data instead of the run failing fast. -/
theorem c8_no_validation_on_invalid_geometry :
    ¬ List.Pairwise (· < ·) mbad.r_outer ∧
    nonphoto_scan mbad.r_outer 4 mbad.inverse_time_explosion
      = (0, [((1:ℤ), 1 + 3 * C_INV, 0), ((2:ℤ), 1 - 3 * C_INV, 0)]) ∧
    (populate_z mbad 4 (fun _ => 0) (fun _ => 0)).2.2 = 4 ∧
    (0:ℤ) ∉ (nonphoto_scan mbad.r_outer 4 mbad.inverse_time_explosion).2.map
      (fun w => w.1) := by
  have hsqrt : Real.sqrt (5 * 5 - 4 * 4) = 3 := by
    rw [show (5 * 5 - 4 * 4 : ℝ) = 3 ^ 2 by norm_num,
      Real.sqrt_sq (by norm_num : (0:ℝ) ≤ 3)]
  have hz5 : calculate_z ((5:ℝ)) 4 1 = 3 * C_INV := by
    rw [calculate_z, if_pos (by norm_num : (5:ℝ) > 4), hsqrt, mul_one]
  have hz3 : calculate_z ((3:ℝ)) 4 1 = 0 := by
    rw [calculate_z, if_neg (by norm_num)]
  have hstep0 : nonphoto_step 2 [(5:ℝ), 3] 4 1 (-1, []) 0
      = (0, [((1:ℤ), 1 + 3 * C_INV, 0), ((2:ℤ), 1 - 3 * C_INV, 0)]) := by
    simp only [nonphoto_step]
    rw [if_neg (show ¬ (calculate_z (List.getD [(5:ℝ), 3] 0 0) 4 1 = 0) from by
      rw [show calculate_z (List.getD [(5:ℝ), 3] 0 0) 4 1 = 3 * C_INV from hz5]
      norm_num [C_INV])]
    rw [show calculate_z (List.getD [(5:ℝ), 3] 0 0) 4 1 = 3 * C_INV from hz5]
    norm_num
  have hstep1 : nonphoto_step 2 [(5:ℝ), 3] 4 1
      (0, [((1:ℤ), 1 + 3 * C_INV, 0), ((2:ℤ), 1 - 3 * C_INV, 0)]) 1
      = (0, [((1:ℤ), 1 + 3 * C_INV, 0), ((2:ℤ), 1 - 3 * C_INV, 0)]) :=
    if_pos hz3
  have hscan : nonphoto_scan mbad.r_outer 4 mbad.inverse_time_explosion
      = (0, [((1:ℤ), 1 + 3 * C_INV, 0), ((2:ℤ), 1 - 3 * C_INV, 0)]) := by
    show (List.range (List.length [(5:ℝ), 3])).foldl
      (nonphoto_step (List.length [(5:ℝ), 3]) [(5:ℝ), 3] 4 1) (-1, []) = _
    rw [show List.length [(5:ℝ), 3] = 2 from rfl,
      show List.range 2 = [0, 1] from rfl,
      List.foldl_cons, List.foldl_cons, List.foldl_nil, hstep0, hstep1]
  refine ⟨?_, hscan, ?_, ?_⟩
  · intro hcon
    rw [show mbad.r_outer = [(5:ℝ), 3] from rfl, List.pairwise_cons] at hcon
    have := hcon.1 3 (List.mem_cons_self 3 [])
    norm_num at this
  · rw [populate_z_of_gt mbad 4 _ _ (by norm_num [mbad])]
    show 2 * ((mbad.no_of_shells : ℤ)
        - (nonphoto_scan mbad.r_outer 4 mbad.inverse_time_explosion).1) = 4
    rw [hscan]
    norm_num [mbad, StorageModel.no_of_shells]
  · rw [hscan]
    simp

/-- The `z` / `shell_id` buffer component of the `p_idx` loop state does not
depend on the intensity-buffer component of the initial state. -/
theorem foldl_loop_step_snd (s : StorageModel) (e a : ℤ → ℝ) (iT nu : ℝ)
    (pp : ℕ → ℝ) :
    ∀ (l : List ℕ) (I1 I2 : ℕ → ℝ) (B : (ℤ → ℝ) × (ℤ → ℤ)),
      (l.foldl (loop_step s e a iT nu pp) (I1, B)).2
        = (l.foldl (loop_step s e a iT nu pp) (I2, B)).2
  | [], _, _, _ => rfl
  | x :: xs, I1, I2, B => by
    rw [List.foldl_cons, List.foldl_cons,
      show loop_step s e a iT nu pp (I1, B) x
        = (Function.update I1 x (per_ray s e a iT nu (pp x) B.1 B.2),
           (populate_z s (pp x) B.1 B.2).1, (populate_z s (pp x) B.1 B.2).2.1)
        from rfl,
      show loop_step s e a iT nu pp (I2, B) x
        = (Function.update I2 x (per_ray s e a iT nu (pp x) B.1 B.2),
           (populate_z s (pp x) B.1 B.2).1, (populate_z s (pp x) B.1 B.2).2.1)
        from rfl]
    exact foldl_loop_step_snd s e a iT nu pp xs _ _ _

/-- Two runs of the `p_idx` loop whose initial intensity buffers agree off
slot `0` (and share the same scratch buffers) agree off slot `0` afterwards:
slot values `1 .. N-1` are recomputed identically. -/
theorem foldl_loop_step_agree (s : StorageModel) (e a : ℤ → ℝ) (iT nu : ℝ)
    (pp : ℕ → ℝ) :
    ∀ (l : List ℕ) (I1 I2 : ℕ → ℝ) (B : (ℤ → ℝ) × (ℤ → ℤ)),
      (∀ j : ℕ, j ≠ 0 → I1 j = I2 j) →
      ∀ j : ℕ, j ≠ 0 →
        (l.foldl (loop_step s e a iT nu pp) (I1, B)).1 j
          = (l.foldl (loop_step s e a iT nu pp) (I2, B)).1 j
  | [], _, _, _, h, j, hj => h j hj
  | x :: xs, I1, I2, B, h, j, hj => by
    rw [List.foldl_cons, List.foldl_cons,
      show loop_step s e a iT nu pp (I1, B) x
        = (Function.update I1 x (per_ray s e a iT nu (pp x) B.1 B.2),
           (populate_z s (pp x) B.1 B.2).1, (populate_z s (pp x) B.1 B.2).2.1)
        from rfl,
      show loop_step s e a iT nu pp (I2, B) x
        = (Function.update I2 x (per_ray s e a iT nu (pp x) B.1 B.2),
           (populate_z s (pp x) B.1 B.2).1, (populate_z s (pp x) B.1 B.2).2.1)
        from rfl]
    apply foldl_loop_step_agree s e a iT nu pp xs _ _ _ ?_ j hj
    intro j' hj'
    by_cases hx : j' = x
    · subst hx
      rw [Function.update_same, Function.update_same]
    · rw [Function.update_noteq hx, Function.update_noteq hx]
      exact h j' hj'

/-- C7: a frequency bin's output value does *not* depend only on the inputs
and its own index — it also depends on the executing thread's uninitialized
`I_nu[0]` stack slot.  With identical inputs, two evaluations of the same bin
whose thread-local intensity buffers start with different (indeterminate)
contents at slot 0 produce different `L[nu_idx]`; since each worker thread
carries its own uninitialized buffer, thread count / scheduling can change
which content a bin sees, contradicting bit-reproducibility. -/
theorem c7_output_depends_on_thread_scratch (s : StorageModel)
    (att_S_ul : ℤ → ℝ) (iT nu : ℝ) (N : ℕ) (I1 I2 : ℕ → ℝ)
    (B : (ℤ → ℝ) × (ℤ → ℤ))
    (hN : 2 ≤ N) (hR : 0 < R_max s)
    (hagree : ∀ j : ℕ, j ≠ 0 → I1 j = I2 j)
    (hdiff : I1 0 ≠ I2 0) :
    L_bin s att_S_ul iT nu N (I1, B) ≠ L_bin s att_S_ul iT nu N (I2, B) := by
  have hrange : ∀ x ∈ List.range' 1 (N - 1), x ≠ 0 := by
    intro x hx
    have := List.mem_range'_1.mp hx
    omega
  have h0a : (p_loop s (exp_tau_of s) att_S_ul iT nu (calculate_p_values s N) N
      (I1, B)).1 0 = I1 0 :=
    foldl_loop_step_fst_zero s (exp_tau_of s) att_S_ul iT nu
      (calculate_p_values s N) _ _ hrange
  have h0b : (p_loop s (exp_tau_of s) att_S_ul iT nu (calculate_p_values s N) N
      (I2, B)).1 0 = I2 0 :=
    foldl_loop_step_fst_zero s (exp_tau_of s) att_S_ul iT nu
      (calculate_p_values s N) _ _ hrange
  have hag : ∀ j : ℕ, j ≠ 0 →
      (p_loop s (exp_tau_of s) att_S_ul iT nu (calculate_p_values s N) N
        (I1, B)).1 j
      = (p_loop s (exp_tau_of s) att_S_ul iT nu (calculate_p_values s N) N
        (I2, B)).1 j := fun j hj =>
    foldl_loop_step_agree s (exp_tau_of s) att_S_ul iT nu
      (calculate_p_values s N) _ I1 I2 B hagree j hj
  have hsum : ∑ idx ∈ Finset.Ico 1 (N - 1),
      (p_loop s (exp_tau_of s) att_S_ul iT nu (calculate_p_values s N) N
        (I1, B)).1 idx
      = ∑ idx ∈ Finset.Ico 1 (N - 1),
      (p_loop s (exp_tau_of s) att_S_ul iT nu (calculate_p_values s N) N
        (I2, B)).1 idx :=
    Finset.sum_congr rfl (fun idx hidx => hag idx (by
      have := Finset.mem_Ico.mp hidx
      omega))
  have hN1 : (p_loop s (exp_tau_of s) att_S_ul iT nu (calculate_p_values s N) N
      (I1, B)).1 (N - 1)
      = (p_loop s (exp_tau_of s) att_S_ul iT nu (calculate_p_values s N) N
      (I2, B)).1 (N - 1) := hag (N - 1) (by omega)
  have hL : L_bin s att_S_ul iT nu N (I1, B) - L_bin s att_S_ul iT nu N (I2, B)
      = 8 * Real.pi * Real.pi * (((I1 0 - I2 0) / 2) * (R_max s / (N : ℝ))) := by
    show 8 * Real.pi * Real.pi *
        trapezoid_integration
          (p_loop s (exp_tau_of s) att_S_ul iT nu (calculate_p_values s N) N
            (I1, B)).1 (R_max s / (N : ℝ)) N
      - 8 * Real.pi * Real.pi *
        trapezoid_integration
          (p_loop s (exp_tau_of s) att_S_ul iT nu (calculate_p_values s N) N
            (I2, B)).1 (R_max s / (N : ℝ)) N = _
    rw [← mul_sub]
    simp only [trapezoid_integration]
    rw [hsum, hN1, h0a, h0b]
    ring
  intro hcon
  rw [hcon, sub_self] at hL
  have h8 : (8:ℝ) * Real.pi * Real.pi ≠ 0 :=
    mul_ne_zero (mul_ne_zero (by norm_num) Real.pi_ne_zero) Real.pi_ne_zero
  have hx : ((I1 0 - I2 0) / 2) * (R_max s / (N : ℝ)) ≠ 0 :=
    mul_ne_zero (div_ne_zero (sub_ne_zero.mpr hdiff) two_ne_zero)
      (div_ne_zero (ne_of_gt hR) (Nat.cast_ne_zero.mpr (by omega)))
  exact (mul_ne_zero h8 hx) hL.symm

/-- Witness for C7 on `m23` with `N = 2`: starting the intensity buffer with
`1` instead of `0` at slot 0 changes the bin's output. -/
theorem c7_thread_scratch_witness :
    L_bin m23 (fun _ => 0) 1 1 2
        ((fun j => if j = 0 then 1 else 0), (fun _ => 0, fun _ => 0))
      ≠ L_bin m23 (fun _ => 0) 1 1 2 ((fun _ => 0), (fun _ => 0, fun _ => 0)) :=
  c7_output_depends_on_thread_scratch m23 (fun _ => 0) 1 1 2
    (fun j => if j = 0 then 1 else 0) (fun _ => 0) (fun _ => 0, fun _ => 0)
    (le_refl 2)
    (by norm_num [R_max, m23, StorageModel.no_of_shells])
    (fun j hj => by simp [hj])
    (by norm_num)

end

end Integrator
